import Mathlib

/-!
Shallow embedding of the cyphi core (src/cyphi/subsystem.py, src/cyphi/compute.py)
for verifying the natural-language specification of the repository.

A network state is a Boolean assignment to the node indices; probability tensors
over the network state space (numpy arrays whose shape has a 2 at some node
dimensions and a 1 at the others, combined by broadcasting) are embedded as
rational-valued functions of the full network state: a singleton dimension of an
array corresponds to a function that is constant in that coordinate, and
broadcasting multiplication becomes pointwise multiplication of functions.
Machine floats are embedded as exact rationals; the float sentinels
`float('inf')` and `float('-inf')` used by the search loops are embedded as the
top and bottom elements of `WithTop`/`WithBot`.
-/

namespace CyPhi

/-- A joint state of the whole network: one Boolean per node index. -/
abbrev StateV (n : ℕ) := Fin n → Bool

/-- A probability tensor over the network state space (see module docstring). -/
abbrev TensorM (n : ℕ) := StateV n → ℚ

/-- Embedding of `network.Network` (content identity per the spec): the
per-node transition tensors (probability that the node is ON given the joint
network state, already locally marginalized by the external node builder) and
the connectivity matrix `cm i j = true` iff there is a connection from `i` to `j`. -/
structure NetworkM (n : ℕ) where
  tpm : Fin n → TensorM n
  cm : Fin n → Fin n → Bool

/-- Embedding of `subsystem.Subsystem`: the ordered collection of node indices,
the two states, the parent network, and the cut `a_cut(severed, intact)`
(connections from `severed` into `intact` are treated as severed). The default
cut in the source is `a_cut((), self.nodes)`. -/
structure SubsystemM (n : ℕ) where
  nodes : List (Fin n)
  current_state : StateV n
  past_state : StateV n
  network : NetworkM n
  cutSevered : List (Fin n)
  cutIntact : List (Fin n)

/-- Equality of networks is by content (spec section 3); the embedding's
structure equality is exactly that. -/
def networkEq {n : ℕ} (N1 N2 : NetworkM n) : Prop := N1 = N2

/-- Embedding of `Subsystem.__eq__`: two subsystems are equal iff their node
sets, current states, past states and networks are equal. The cut is not read. -/
def subsystemEq {n : ℕ} (S1 S2 : SubsystemM n) : Prop :=
  S1.nodes.toFinset = S2.nodes.toFinset ∧
  S1.current_state = S2.current_state ∧
  S1.past_state = S2.past_state ∧
  networkEq S1.network S2.network

/-- Embedding of `Subsystem.__hash__`: Python hashes the tuple
`(frozenset(self.nodes), current_state.tostring(), past_state.tostring(),
network)`; equal tuples give equal hashes, so the hash is embedded as that
content tuple itself. The cut is not part of the tuple. -/
def hashKey {n : ℕ} (S : SubsystemM n) :
    Finset (Fin n) × StateV n × StateV n × NetworkM n :=
  (S.nodes.toFinset, S.current_state, S.past_state, S.network)

/-- Embedding of the memoization key of `compute.big_mip`: the wrapper calls
`_big_mip(hash(subsystem), subsystem)` and `@memory.cache(ignore=["subsystem"])`
drops the subsystem argument itself from the key, so the cache key is exactly
`hash(subsystem)`. -/
def bigMipCacheKey {n : ℕ} (S : SubsystemM n) :
    Finset (Fin n) × StateV n × StateV n × NetworkM n :=
  hashKey S

/-- Embedding of `Subsystem.cut(severed, intact)` (state-passing style: the
result is the subsystem with the new cut applied, or the `ValueError`).  The
singleton coercion of the source is handled by the typing here: the arguments
are already tuples of nodes.  The source raises before any mutation, so on the
error branch the input subsystem is untouched by construction. -/
def applyCut {n : ℕ} (S : SubsystemM n) (severed intact : List (Fin n)) :
    Except String (SubsystemM n) :=
  if S.nodes.length = (severed ++ intact).length ∧
      S.nodes.toFinset = (severed ++ intact).toFinset then
    .ok { S with cutSevered := severed, cutIntact := intact }
  else
    .error "Each node in the subsystem must appear exactly once in the partition."

/-- Claim C8: two subsystems over the same network with the same node set,
current state and past state are equal (`Subsystem.__eq__`) and have equal
hashes (`Subsystem.__hash__`) regardless of their cuts, and the big-MIP
memoization key `hash(subsystem)` coincides for them. -/
theorem subsystem_identity_ignores_cut {n : ℕ} (S1 S2 : SubsystemM n)
    (hnodes : S1.nodes.toFinset = S2.nodes.toFinset)
    (hcur : S1.current_state = S2.current_state)
    (hpast : S1.past_state = S2.past_state)
    (hnet : S1.network = S2.network) :
    subsystemEq S1 S2 ∧ hashKey S1 = hashKey S2 ∧
      bigMipCacheKey S1 = bigMipCacheKey S2 := by
  refine ⟨⟨hnodes, hcur, hpast, hnet⟩, ?_, ?_⟩ <;>
    simp [hashKey, bigMipCacheKey, hnodes, hcur, hpast, hnet]

/-- A two-node example network used by concrete witnesses. -/
def exNetwork2 : NetworkM 2 :=
  { tpm := fun _ _ => 0
    cm := fun i j => i = 0 ∧ j = 1 }

/-- Witness for C8: the same content with two different cuts gives equal
identity and equal cache keys. -/
theorem subsystem_identity_ignores_cut_witness :
    subsystemEq
        { nodes := [0, 1], current_state := fun _ => true,
          past_state := fun _ => false, network := exNetwork2,
          cutSevered := [], cutIntact := [0, 1] }
        { nodes := [0, 1], current_state := fun _ => true,
          past_state := fun _ => false, network := exNetwork2,
          cutSevered := [0], cutIntact := [1] } ∧
      hashKey
        { nodes := [0, 1], current_state := fun _ => true,
          past_state := fun _ => false, network := exNetwork2,
          cutSevered := [], cutIntact := [0, 1] } =
      hashKey
        { nodes := [0, 1], current_state := fun _ => true,
          past_state := fun _ => false, network := exNetwork2,
          cutSevered := [0], cutIntact := [1] } ∧
      bigMipCacheKey
        { nodes := [0, 1], current_state := fun _ => true,
          past_state := fun _ => false, network := exNetwork2,
          cutSevered := [], cutIntact := [0, 1] } =
      bigMipCacheKey
        { nodes := [0, 1], current_state := fun _ => true,
          past_state := fun _ => false, network := exNetwork2,
          cutSevered := [0], cutIntact := [1] } :=
  subsystem_identity_ignores_cut _ _ rfl rfl rfl rfl

/-- Claim C9: `Subsystem.cut(severed, intact)` succeeds (setting the cut to
`(severed, intact)`) exactly when the concatenation of `severed` and `intact`
contains each subsystem node exactly once (a permutation of the node list), and
raises the `ValueError` otherwise, leaving the subsystem unchanged (the source
raises before assigning `self._cut`). -/
theorem cut_requires_exact_cover {n : ℕ} (S : SubsystemM n)
    (severed intact : List (Fin n)) (hnodup : S.nodes.Nodup) :
    ((severed ++ intact).Perm S.nodes →
      applyCut S severed intact =
        .ok { S with cutSevered := severed, cutIntact := intact }) ∧
    (¬ (severed ++ intact).Perm S.nodes →
      applyCut S severed intact =
        .error
          "Each node in the subsystem must appear exactly once in the partition.") := by
  constructor
  · intro hperm
    have hlen : S.nodes.length = (severed ++ intact).length := hperm.length_eq.symm
    have hset : S.nodes.toFinset = (severed ++ intact).toFinset :=
      (List.toFinset_eq_of_perm _ _ hperm).symm
    simp [applyCut, hlen, hset]
  · intro hnp
    rw [applyCut, if_neg]
    rintro ⟨hlen, hset⟩
    apply hnp
    -- From the set equality and the length equality, the concatenation has no
    -- duplicates, hence is a permutation of the (duplicate-free) node list.
    have hcard : (severed ++ intact).toFinset.card = (severed ++ intact).length := by
      rw [← hset, List.toFinset_card_of_nodup hnodup, hlen]
    have hnd : (severed ++ intact).Nodup := by
      rw [List.card_toFinset] at hcard
      have hsub : (severed ++ intact).dedup.Sublist (severed ++ intact) :=
        List.dedup_sublist _
      have : (severed ++ intact).dedup = severed ++ intact :=
        hsub.eq_of_length hcard
      exact List.dedup_eq_self.mp this
    exact List.perm_of_nodup_nodup_toFinset_eq hnd hnodup hset.symm

/-- Witness for C9: on a concrete two-node subsystem, a valid cover succeeds and
an invalid one raises. -/
theorem cut_requires_exact_cover_witness :
    applyCut
        { nodes := [0, 1], current_state := fun _ => true,
          past_state := fun _ => false, network := exNetwork2,
          cutSevered := [], cutIntact := [0, 1] }
        [1] [0] =
      .ok { nodes := [0, 1], current_state := fun _ => true,
            past_state := fun _ => false, network := exNetwork2,
            cutSevered := [1], cutIntact := [0] } ∧
    applyCut
        { nodes := [0, 1], current_state := fun _ => true,
          past_state := fun _ => false, network := exNetwork2,
          cutSevered := [], cutIntact := [0, 1] }
        [1] [1] =
      .error
        "Each node in the subsystem must appear exactly once in the partition." := by
  constructor
  · exact (cut_requires_exact_cover _ [1] [0] (by decide)).1 (by decide)
  · exact (cut_requires_exact_cover _ [1] [1] (by decide)).2 (by decide)

/-!
Constellation distance (src/cyphi/compute.py).

A `Concept` (models.py, external to src/) is identified for the purposes of the
distance code by its content: Python membership tests `c in constellation` use
`Concept.__eq__`, which is content equality.  The distance code reads only the
`phi` attribute and equality, so a concept is embedded as its mechanism
together with its phi value.  `utils.emd` and `concept_distance`'s repertoire
expansion are external to src/ and enter the embedded code only as oracles.
-/

/-- Content of a concept as read by the constellation-distance code: its
mechanism (a list of node indices) and its phi value. -/
structure ConceptM where
  mechanism : List ℕ
  phi : ℚ
  deriving DecidableEq

/-- Modelled from the spec: `subsystem.null_concept` (models.py is not under
src/) is the zero-phi concept for the empty mechanism, the origin of
concept-space. -/
def nullConceptM : ConceptM := ⟨[], 0⟩

/-- Embedding of the list comprehension building `d1` and `d2` in
`_constellation_distance_emd`: `[c.phi if c in constellation else 0 for c in
all_concepts]`. -/
def phiDistribution (constellation allConcepts : List ConceptM) : List ℚ :=
  allConcepts.map (fun c => if c ∈ constellation then c.phi else 0)

/-- Embedding of the mass-vector construction of
`_constellation_distance_emd(C1, C2, unique_C1, unique_C2, subsystem)`: the
shared concepts, the union list ending in the null concept, the two phi
distributions, and the residual adjustment `if residual > 0: d2[-1] = residual`
/ `if residual < 0: d1[-1] = residual` (note the source assigns the signed
residual, not its absolute value).  Returns the pair `(d1, d2)` that the source
then passes to `utils.emd`. -/
def emdDistributions (C1 C2 uniqueC1 uniqueC2 : List ConceptM) :
    List ℚ × List ℚ :=
  let shared := C1.filter (fun c => c ∈ C2)
  let allConcepts := shared ++ uniqueC1 ++ uniqueC2 ++ [nullConceptM]
  let d1 := phiDistribution C1 allConcepts
  let d2 := phiDistribution C2 allConcepts
  let residual := d1.sum - d2.sum
  let d2a := if residual > 0 then d2.set (d2.length - 1) residual else d2
  let d1a := if residual < 0 then d1.set (d1.length - 1) residual else d1
  (d1a, d2a)

/-- Embedding of the caller `constellation_distance`'s general (EMD) path: it
computes `concepts_only_in_C1`, `concepts_only_in_C2` and hands them to
`_constellation_distance_emd`; this function returns the two mass vectors that
path builds. -/
def constellationDistanceVectors (C1 C2 : List ConceptM) : List ℚ × List ℚ :=
  emdDistributions C1 C2
    (C1.filter (fun c => c ∉ C2)) (C2.filter (fun c => c ∉ C1))

/-- Embedding of `_constellation_distance_simple`, with the pairwise concept
distance (`concept_distance`, whose value depends on the external repertoire
expansion and `utils.hamming_emd`) supplied as an oracle `cd`. -/
def constellationDistanceSimple (cd : ConceptM → ConceptM → ℚ)
    (C1 C2 : List ConceptM) : ℚ :=
  let p := if C2.length > C1.length then (C2, C1) else (C1, C2)
  ((p.1.filter (fun c => c ∉ p.2)).map
    (fun c => c.phi * cd c nullConceptM)).sum

/-- Embedding of `constellation_distance` with the external `utils.emd` and
`concept_distance` supplied as oracles: the simple path is taken iff one of the
one-sided difference lists is empty, otherwise the general EMD path is taken on
the vectors of `constellationDistanceVectors` and the ground matrix of pairwise
concept distances. -/
def constellation_distance
    (emdO : List ℚ → List ℚ → List (List ℚ) → ℚ)
    (cd : ConceptM → ConceptM → ℚ) (C1 C2 : List ConceptM) : ℚ :=
  let onlyC1 := C1.filter (fun c => c ∉ C2)
  let onlyC2 := C2.filter (fun c => c ∉ C1)
  if onlyC1 = [] ∨ onlyC2 = [] then constellationDistanceSimple cd C1 C2
  else
    let shared := C1.filter (fun c => c ∈ C2)
    let allConcepts := shared ++ onlyC1 ++ onlyC2 ++ [nullConceptM]
    let p := emdDistributions C1 C2 onlyC1 onlyC2
    emdO p.1 p.2
      (allConcepts.map (fun j => allConcepts.map (fun i => cd i j)))

/-- Claim C1 (failing-input evaluation): for the concrete constellations
`C1 = [concept with phi 1]` and `C2 = [a different concept with phi 2]`
(each containing a concept absent from the other, so the general EMD path is
taken), the code assigns the negative residual -1 to the null entry of `d1`,
producing mass vectors with sums 0 and 2: the two sums are not equal, contrary
to the claimed mass conservation. -/
theorem emd_mass_not_conserved_on_lighter_first_argument :
    (constellationDistanceVectors [⟨[0], 1⟩] [⟨[1], 2⟩]).1 = [1, 0, -1] ∧
    (constellationDistanceVectors [⟨[0], 1⟩] [⟨[1], 2⟩]).2 = [0, 2, 0] ∧
    (constellationDistanceVectors [⟨[0], 1⟩] [⟨[1], 2⟩]).1.sum = 0 ∧
    (constellationDistanceVectors [⟨[0], 1⟩] [⟨[1], 2⟩]).2.sum = 2 ∧
    (constellationDistanceVectors [⟨[0], 1⟩] [⟨[1], 2⟩]).1.sum ≠
      (constellationDistanceVectors [⟨[0], 1⟩] [⟨[1], 2⟩]).2.sum := by
  refine ⟨?_, ?_, ?_, ?_, ?_⟩ <;>
    norm_num [constellationDistanceVectors, emdDistributions, phiDistribution,
      nullConceptM]

/-- Claim C5 (failing-input evaluation): for the concrete constellations
`A = [concept with phi 1]` and `B = [a different concept with phi 3]`, the call
`constellation_distance(A, B, s)` hands the external EMD the mass vectors with
sums -1 and 3 (a negative null-entry on the lighter side), while the swapped
call `constellation_distance(B, A, s)` hands it vectors with sums 3 and 3: the
two directions pose inequivalent transport problems, so the code does not
compute a symmetric function of its two constellation arguments. -/
theorem constellation_distance_inputs_asymmetric :
    (constellationDistanceVectors [⟨[0], 1⟩] [⟨[1], 3⟩]).1.sum = -1 ∧
    (constellationDistanceVectors [⟨[0], 1⟩] [⟨[1], 3⟩]).2.sum = 3 ∧
    (constellationDistanceVectors [⟨[1], 3⟩] [⟨[0], 1⟩]).1.sum = 3 ∧
    (constellationDistanceVectors [⟨[1], 3⟩] [⟨[0], 1⟩]).2.sum = 3 := by
  refine ⟨?_, ?_, ?_, ?_⟩ <;>
    norm_num [constellationDistanceVectors, emdDistributions, phiDistribution,
      nullConceptM]

/-!
Mechanism-level partition search (src/cyphi/subsystem.py).
-/

/-- All ways to distribute the elements of a list over two halves, preserving
order; helper for the bipartition enumeration. -/
def allSplits {α : Type} : List α → List (List α × List α)
  | [] => [([], [])]
  | y :: ys => (allSplits ys).flatMap (fun p => [(p.1, y :: p.2), (y :: p.1, p.2)])

/-- Modelled from the spec: `utils.bipartition` (utils.py is not under src/) —
every bipartition of a sequence, each unordered bipartition enumerated once
(`mip_bipartition` adds the mirrored orientations itself via `x[::-1]`), with
the trivial bipartition `((), whole)` first (compute.py skips it with `[1:]`
calling it "the first bipartition"). -/
def bipartitionM {α : Type} : List α → List (List α × List α)
  | [] => [([], [])]
  | x :: xs => (allSplits xs).map (fun p => (p.1, x :: p.2))

/-- Embedding of the namedtuple `a_part(mechanism, purview)`: one side of a
mechanism/purview bipartition. -/
structure PartM (n : ℕ) where
  mechanism : List (Fin n)
  purview : List (Fin n)
  deriving DecidableEq

/-- Embedding of `Subsystem.mip_bipartition(mechanism, purview)`: purview
bipartitions in both orientations crossed with mechanism bipartitions, a
combination being yielded when `set(numerators[0]) & set(denominators[0]) ==
set()`, `set(numerators[1]) & set(denominators[1]) == set()`,
`len(numerators[0]) + len(denominators[0]) > 0` and `len(numerators[1]) +
len(denominators[1]) > 0`. -/
def mip_bipartition {n : ℕ} (mechanism purview : List (Fin n)) :
    List (PartM n × PartM n) :=
  let purviewBipartitions := bipartitionM purview
  (purviewBipartitions ++ purviewBipartitions.map (fun x => (x.2, x.1))).flatMap
    (fun denominators =>
      (bipartitionM mechanism).filterMap (fun numerators =>
        if numerators.1.toFinset ∩ denominators.1.toFinset = ∅ ∧
            numerators.2.toFinset ∩ denominators.2.toFinset = ∅ ∧
            0 < numerators.1.length + denominators.1.length ∧
            0 < numerators.2.length + denominators.2.length then
          some (⟨numerators.1, denominators.1⟩, ⟨numerators.2, denominators.2⟩)
        else none))

/-- The (Part, Part) pairs described by claim C4's filter, word for word: the
two Parts' mechanism-halves disjoint, the two Parts' purview-halves disjoint,
and no Part with both halves empty. -/
def mipBipartitionClaimed {n : ℕ} (mechanism purview : List (Fin n)) :
    List (PartM n × PartM n) :=
  let purviewBipartitions := bipartitionM purview
  (purviewBipartitions ++ purviewBipartitions.map (fun x => (x.2, x.1))).flatMap
    (fun denominators =>
      (bipartitionM mechanism).filterMap (fun numerators =>
        if numerators.1.toFinset ∩ numerators.2.toFinset = ∅ ∧
            denominators.1.toFinset ∩ denominators.2.toFinset = ∅ ∧
            0 < numerators.1.length + denominators.1.length ∧
            0 < numerators.2.length + denominators.2.length then
          some (⟨numerators.1, denominators.1⟩, ⟨numerators.2, denominators.2⟩)
        else none))

/-- Disjointness of two lists with decidable equality is decidable. -/
instance {α : Type} [DecidableEq α] (l l' : List α) : Decidable (l.Disjoint l') :=
  decidable_of_iff (∀ a ∈ l, a ∉ l') (by rw [List.disjoint_left])

/-- The (Part, Part) pairs described by the amended claim C4: within each Part,
the mechanism-half and the purview-half are disjoint, and no Part has its
mechanism-half and purview-half both empty. -/
def mipBipartitionWithinPart {n : ℕ} (mechanism purview : List (Fin n)) :
    List (PartM n × PartM n) :=
  let purviewBipartitions := bipartitionM purview
  (purviewBipartitions ++ purviewBipartitions.map (fun x => (x.2, x.1))).flatMap
    (fun denominators =>
      (bipartitionM mechanism).filterMap (fun numerators =>
        if numerators.1.Disjoint denominators.1 ∧
            numerators.2.Disjoint denominators.2 ∧
            ¬(numerators.1 = [] ∧ denominators.1 = []) ∧
            ¬(numerators.2 = [] ∧ denominators.2 = []) then
          some (⟨numerators.1, denominators.1⟩, ⟨numerators.2, denominators.2⟩)
        else none))

/-- The source's yield condition stated with Finset intersections is equivalent
to the amended claim's phrasing with list disjointness and nonemptiness. -/
theorem validPartitionIff {n : ℕ}
    (numerators denominators : List (Fin n) × List (Fin n)) :
    (numerators.1.toFinset ∩ denominators.1.toFinset = ∅ ∧
      numerators.2.toFinset ∩ denominators.2.toFinset = ∅ ∧
      0 < numerators.1.length + denominators.1.length ∧
      0 < numerators.2.length + denominators.2.length) ↔
    (numerators.1.Disjoint denominators.1 ∧
      numerators.2.Disjoint denominators.2 ∧
      ¬(numerators.1 = [] ∧ denominators.1 = []) ∧
      ¬(numerators.2 = [] ∧ denominators.2 = [])) := by
  have hdisj : ∀ l l' : List (Fin n),
      l.toFinset ∩ l'.toFinset = ∅ ↔ l.Disjoint l' := by
    intro l l'
    rw [← Finset.disjoint_iff_inter_eq_empty, List.disjoint_toFinset_iff_disjoint]
  have hlen : ∀ l l' : List (Fin n),
      0 < l.length + l'.length ↔ ¬(l = [] ∧ l' = []) := by
    intro l l'
    rcases l with _ | _ <;> rcases l' with _ | _ <;> simp
  rw [hdisj, hdisj, hlen, hlen]

/-- Claim C4, counterexample: for mechanism `(0,)` and purview `(0, 1)`, the
pair `((mechanism () over purview (1,)), (mechanism (0,) over purview (0,)))`
satisfies the claim's filter (the two mechanism-halves are disjoint, the two
purview-halves are disjoint, neither Part is fully empty) but is not yielded by
the source, whose filter instead rejects node 0 appearing in both the
mechanism-half and the purview-half of the same Part. -/
theorem mip_bipartition_claim_counterexample :
    ((⟨[], [1]⟩, ⟨[0], [0]⟩) : PartM 2 × PartM 2) ∈
        mipBipartitionClaimed [0] [0, 1] ∧
    ((⟨[], [1]⟩, ⟨[0], [0]⟩) : PartM 2 × PartM 2) ∉
        mip_bipartition [0] [0, 1] := by
  constructor <;> decide

/-- Claim C4 as amended: `mip_bipartition` yields exactly the pairs obtained by
crossing each bipartition of the purview, in both orientations, with each
bipartition of the mechanism, keeping only combinations where each Part's
mechanism-half is disjoint from that same Part's purview-half and no Part has
both halves empty. -/
theorem mip_bipartition_characterization {n : ℕ}
    (mechanism purview : List (Fin n)) (q : PartM n × PartM n) :
    q ∈ mip_bipartition mechanism purview ↔
      q ∈ mipBipartitionWithinPart mechanism purview := by
  simp only [mip_bipartition, mipBipartitionWithinPart, List.mem_flatMap,
    List.mem_filterMap, Option.ite_none_right_eq_some, Option.some_inj]
  constructor
  · rintro ⟨den, hden, num, hnum, hc, hq⟩
    exact ⟨den, hden, num, hnum, (validPartitionIff num den).mp hc, hq⟩
  · rintro ⟨den, hden, num, hnum, hc, hq⟩
    exact ⟨den, hden, num, hnum, (validPartitionIff num den).mpr hc, hq⟩

/-- Embedding of the namedtuple `a_mip(partition, repertoire, difference)`. -/
structure MipR (n : ℕ) where
  partition : PartM n × PartM n
  repertoire : TensorM n
  difference : ℚ

/-- The reducibility threshold `EPSILON = 10**-10` of `find_mip`. -/
def EPSILON : ℚ := 1 / 10 ^ 10

/-- The partitioned repertoire of one candidate bipartition inside `find_mip`:
the product (with broadcasting) of the two Parts' repertoires.  The
direction-resolved repertoire function (`self.cause_repertoire` for 'past',
`self.effect_repertoire` for 'future') is the parameter `rep`. -/
def partitionedRepertoire {n : ℕ}
    (rep : List (Fin n) → List (Fin n) → TensorM n)
    (c : PartM n × PartM n) : TensorM n :=
  fun s => rep c.1.mechanism c.1.purview s * rep c.2.mechanism c.2.purview s

/-- The distance computed for one candidate inside `find_mip`'s loop:
`emd(unpartitioned_repertoire, partitioned_repertoire)`, with the external
`utils.emd` supplied as the oracle `emdD`. -/
def candidateDifference {n : ℕ} (emdD : TensorM n → TensorM n → ℚ)
    (rep : List (Fin n) → List (Fin n) → TensorM n)
    (mechanism purview : List (Fin n)) (c : PartM n × PartM n) : ℚ :=
  emdD (rep mechanism purview) (partitionedRepertoire rep c)

/-- Embedding of the candidate loop of `Subsystem.find_mip`: the accumulator
`mip` starts as `None` and `difference_min` as `float('inf')`; a candidate
below `EPSILON` returns `None` immediately, and a candidate strictly below the
running minimum replaces the stored MIP. -/
def findMipGo {n : ℕ} (emdD : TensorM n → TensorM n → ℚ)
    (rep : List (Fin n) → List (Fin n) → TensorM n) (unpart : TensorM n) :
    List (PartM n × PartM n) → Option (MipR n) → WithTop ℚ → Option (MipR n)
  | [], mip, _ => mip
  | c :: rest, mip, dmin =>
    let pr := partitionedRepertoire rep c
    let diff := emdD unpart pr
    if diff < EPSILON then none
    else if (diff : WithTop ℚ) < dmin then
      findMipGo emdD rep unpart rest (some ⟨c, pr, diff⟩) diff
    else findMipGo emdD rep unpart rest mip dmin

/-- Embedding of `Subsystem.find_mip(direction, mechanism, purview)` after the
direction dispatch: the unpartitioned repertoire is computed once and the loop
runs over `mip_bipartition(mechanism, purview)`. -/
def find_mip {n : ℕ} (emdD : TensorM n → TensorM n → ℚ)
    (rep : List (Fin n) → List (Fin n) → TensorM n)
    (mechanism purview : List (Fin n)) : Option (MipR n) :=
  findMipGo emdD rep (rep mechanism purview)
    (mip_bipartition mechanism purview) none ⊤

/-- Specification device for the loop's accumulator (not part of the source):
starting from a current best `m0`, fold over the remaining candidates,
replacing the best exactly when a candidate's distance is strictly below the
current best's distance (so ties keep the earlier candidate). -/
def bestMip {n : ℕ} (emdD : TensorM n → TensorM n → ℚ)
    (rep : List (Fin n) → List (Fin n) → TensorM n) (unpart : TensorM n) :
    MipR n → List (PartM n × PartM n) → MipR n
  | m0, [] => m0
  | m0, c :: rest =>
    bestMip emdD rep unpart
      (if emdD unpart (partitionedRepertoire rep c) < m0.difference then
        ⟨c, partitionedRepertoire rep c, emdD unpart (partitionedRepertoire rep c)⟩
      else m0) rest

/-- Short-circuit half of the loop: if any candidate's distance is below
`EPSILON`, the loop returns `None`, whatever the accumulator holds. -/
theorem findMipGo_reducible {n : ℕ} (emdD : TensorM n → TensorM n → ℚ)
    (rep : List (Fin n) → List (Fin n) → TensorM n) (unpart : TensorM n)
    (l : List (PartM n × PartM n))
    (hex : ∃ c ∈ l, emdD unpart (partitionedRepertoire rep c) < EPSILON) :
    ∀ (mip : Option (MipR n)) (dmin : WithTop ℚ),
      findMipGo emdD rep unpart l mip dmin = none := by
  induction l with
  | nil => simp at hex
  | cons c rest ih =>
    intro mip dmin
    rw [findMipGo]
    by_cases hc : emdD unpart (partitionedRepertoire rep c) < EPSILON
    · simp [hc]
    · rw [if_neg hc]
      obtain ⟨x, hx, hxlt⟩ := hex
      rcases List.mem_cons.mp hx with hxc | hxr
      · exact absurd (hxc ▸ hxlt) hc
      · have := ih ⟨x, hxr, hxlt⟩
        split <;> exact this _ _

/-- The loop with a loaded accumulator `some m0` (and running minimum
`m0.difference`), on candidates all at or above `EPSILON`, computes `bestMip`. -/
theorem findMipGo_loaded {n : ℕ} (emdD : TensorM n → TensorM n → ℚ)
    (rep : List (Fin n) → List (Fin n) → TensorM n) (unpart : TensorM n)
    (l : List (PartM n × PartM n))
    (hall : ∀ c ∈ l, EPSILON ≤ emdD unpart (partitionedRepertoire rep c)) :
    ∀ m0 : MipR n,
      findMipGo emdD rep unpart l (some m0) (m0.difference : ℚ) =
        some (bestMip emdD rep unpart m0 l) := by
  induction l with
  | nil => intro m0; rw [findMipGo, bestMip]
  | cons c rest ih =>
    intro m0
    have hc : ¬ emdD unpart (partitionedRepertoire rep c) < EPSILON :=
      not_lt.mpr (hall c (by simp))
    have hallr : ∀ x ∈ rest, EPSILON ≤ emdD unpart (partitionedRepertoire rep x) :=
      fun x hx => hall x (List.mem_cons_of_mem _ hx)
    rw [findMipGo, if_neg hc, bestMip]
    by_cases hlt : emdD unpart (partitionedRepertoire rep c) < m0.difference
    · rw [if_pos (by exact_mod_cast hlt), if_pos hlt]
      exact ih hallr ⟨c, partitionedRepertoire rep c,
        emdD unpart (partitionedRepertoire rep c)⟩
    · rw [if_neg (by exact_mod_cast hlt), if_neg hlt]
      exact ih hallr m0

/-- What `bestMip` computes: either no candidate strictly improves on the
starting best (then it is returned, and it is a lower bound on all candidate
distances), or the result is the first candidate achieving the minimal
distance, which strictly improves on the start, is strictly below every
earlier candidate, and is a lower bound on all candidates. -/
theorem bestMip_spec {n : ℕ} (emdD : TensorM n → TensorM n → ℚ)
    (rep : List (Fin n) → List (Fin n) → TensorM n) (unpart : TensorM n)
    (l : List (PartM n × PartM n)) :
    ∀ m0 : MipR n,
      (bestMip emdD rep unpart m0 l = m0 ∧
        ∀ c ∈ l, m0.difference ≤ emdD unpart (partitionedRepertoire rep c)) ∨
      ∃ r, bestMip emdD rep unpart m0 l = r ∧
        r.difference = emdD unpart (partitionedRepertoire rep r.partition) ∧
        r.repertoire = partitionedRepertoire rep r.partition ∧
        r.difference < m0.difference ∧
        (∀ c ∈ l, r.difference ≤ emdD unpart (partitionedRepertoire rep c)) ∧
        ∃ pre post, l = pre ++ r.partition :: post ∧
          ∀ c ∈ pre, r.difference < emdD unpart (partitionedRepertoire rep c) := by
  induction l with
  | nil => intro m0; left; exact ⟨rfl, by simp⟩
  | cons c rest ih =>
    intro m0
    by_cases hlt : emdD unpart (partitionedRepertoire rep c) < m0.difference
    · rw [bestMip, if_pos hlt]
      rcases ih ⟨c, partitionedRepertoire rep c,
          emdD unpart (partitionedRepertoire rep c)⟩ with ⟨heq, hge⟩ |
        ⟨r, hreq, hd, hrep, hless, hge, pre2, post2, hsplit, hpre⟩
      · right
        refine ⟨_, heq, rfl, rfl, hlt, ?_, [], rest, rfl, by simp⟩
        intro x hx
        rcases List.mem_cons.mp hx with hxc | hxr
        · subst hxc; exact le_rfl
        · exact hge x hxr
      · right
        have hless2 : r.difference < emdD unpart (partitionedRepertoire rep c) :=
          hless
        refine ⟨r, hreq, hd, hrep, lt_trans hless2 hlt, ?_, c :: pre2, post2,
          by rw [List.cons_append, ← hsplit], ?_⟩
        · intro x hx
          rcases List.mem_cons.mp hx with hxc | hxr
          · subst hxc; exact le_of_lt hless2
          · exact hge x hxr
        · intro x hx
          rcases List.mem_cons.mp hx with hxc | hxp
          · subst hxc; exact hless2
          · exact hpre x hxp
    · rw [bestMip, if_neg hlt]
      push_neg at hlt
      rcases ih m0 with ⟨heq, hge⟩ |
        ⟨r, hreq, hd, hrep, hless, hge, pre2, post2, hsplit, hpre⟩
      · left
        refine ⟨heq, ?_⟩
        intro x hx
        rcases List.mem_cons.mp hx with hxc | hxr
        · subst hxc; exact hlt
        · exact hge x hxr
      · right
        refine ⟨r, hreq, hd, hrep, hless, ?_, c :: pre2, post2,
          by rw [List.cons_append, ← hsplit], ?_⟩
        · intro x hx
          rcases List.mem_cons.mp hx with hxc | hxr
          · subst hxc; exact le_of_lt (lt_of_lt_of_le hless hlt)
          · exact hge x hxr
        · intro x hx
          rcases List.mem_cons.mp hx with hxc | hxp
          · subst hxc; exact lt_of_lt_of_le hless hlt
          · exact hpre x hxp

/-- Claim C2: for every direction-resolved repertoire function and EMD oracle,
`find_mip` returns `None` (reducible) as soon as some candidate bipartition's
distance is below `EPSILON = 1e-10`, whatever the remaining candidates are; and
when every candidate is at or above `EPSILON` (and there is at least one
candidate) it returns the first candidate achieving the minimal distance, whose
distance is less than or equal to every candidate's distance and strictly below
the distance of every earlier candidate. -/
theorem find_mip_reducible_or_minimal {n : ℕ}
    (emdD : TensorM n → TensorM n → ℚ)
    (rep : List (Fin n) → List (Fin n) → TensorM n)
    (mechanism purview : List (Fin n)) :
    ((∃ c ∈ mip_bipartition mechanism purview,
        candidateDifference emdD rep mechanism purview c < EPSILON) →
      find_mip emdD rep mechanism purview = none) ∧
    (mip_bipartition mechanism purview ≠ [] →
      (∀ c ∈ mip_bipartition mechanism purview,
        EPSILON ≤ candidateDifference emdD rep mechanism purview c) →
      ∃ m, find_mip emdD rep mechanism purview = some m ∧
        m.difference = candidateDifference emdD rep mechanism purview m.partition ∧
        (∀ c ∈ mip_bipartition mechanism purview,
          m.difference ≤ candidateDifference emdD rep mechanism purview c) ∧
        ∃ pre post,
          mip_bipartition mechanism purview = pre ++ m.partition :: post ∧
          ∀ c ∈ pre,
            m.difference < candidateDifference emdD rep mechanism purview c) := by
  constructor
  · intro hex
    exact findMipGo_reducible emdD rep _ _ hex none ⊤
  · intro hne hall
    rcases hl : mip_bipartition mechanism purview with _ | ⟨c0, rest⟩
    · exact absurd hl hne
    rw [hl] at hall
    have hc0 : ¬ emdD (rep mechanism purview) (partitionedRepertoire rep c0) <
        EPSILON :=
      not_lt.mpr (hall c0 (by simp))
    have hallr : ∀ x ∈ rest,
        EPSILON ≤ emdD (rep mechanism purview) (partitionedRepertoire rep x) :=
      fun x hx => hall x (List.mem_cons_of_mem _ hx)
    have hstep : find_mip emdD rep mechanism purview =
        some (bestMip emdD rep (rep mechanism purview)
          ⟨c0, partitionedRepertoire rep c0,
            emdD (rep mechanism purview) (partitionedRepertoire rep c0)⟩ rest) := by
      rw [find_mip, hl, findMipGo, if_neg hc0, if_pos (WithTop.coe_lt_top _)]
      exact findMipGo_loaded emdD rep (rep mechanism purview) rest hallr _
    rcases bestMip_spec emdD rep (rep mechanism purview) rest
        ⟨c0, partitionedRepertoire rep c0,
          emdD (rep mechanism purview) (partitionedRepertoire rep c0)⟩ with
      ⟨heq, hge⟩ | ⟨r, hreq, hd, _, hless, hge, pre2, post2, hsplit, hpre⟩
    · rw [heq] at hstep
      refine ⟨_, hstep, rfl, ?_, [], rest, by simp, by simp⟩
      intro x hx
      rcases List.mem_cons.mp hx with hxc | hxr
      · subst hxc; exact le_rfl
      · exact hge x hxr
    · rw [hreq] at hstep
      have hless2 : r.difference <
          candidateDifference emdD rep mechanism purview c0 := hless
      refine ⟨r, hstep, hd, ?_, c0 :: pre2, post2,
        by rw [List.cons_append, ← hsplit], ?_⟩
      · intro x hx
        rcases List.mem_cons.mp hx with hxc | hxr
        · subst hxc; exact le_of_lt hless2
        · exact hge x hxr
      · intro x hx
        rcases List.mem_cons.mp hx with hxc | hxp
        · subst hxc; exact hless2
        · exact hpre x hxp

/-- An EMD oracle constantly one, and one constantly zero, and a zero
repertoire function, for the concrete witnesses. -/
def emdConstOne : TensorM 1 → TensorM 1 → ℚ := fun _ _ => 1

/-- An EMD oracle constantly zero (every candidate is below `EPSILON`). -/
def emdConstZero : TensorM 1 → TensorM 1 → ℚ := fun _ _ => 0

/-- A repertoire oracle returning the zero tensor. -/
def repZero : List (Fin 1) → List (Fin 1) → TensorM 1 := fun _ _ _ => 0

/-- Witness for C2: for mechanism `(0,)` and purview `(0,)` there is exactly
one candidate bipartition; with distances constantly one a MIP is returned,
with distances constantly zero the reducible branch fires. -/
theorem find_mip_reducible_or_minimal_witness :
    (∃ m, find_mip emdConstOne repZero [0] [0] = some m ∧
      m.difference = candidateDifference emdConstOne repZero [0] [0] m.partition ∧
      (∀ c ∈ mip_bipartition [0] [0],
        m.difference ≤ candidateDifference emdConstOne repZero [0] [0] c) ∧
      ∃ pre post, mip_bipartition [0] [0] = pre ++ m.partition :: post ∧
        ∀ c ∈ pre,
          m.difference < candidateDifference emdConstOne repZero [0] [0] c) ∧
    find_mip emdConstZero repZero [0] [0] = none := by
  constructor
  · exact (find_mip_reducible_or_minimal emdConstOne repZero [0] [0]).2
      (by decide) (fun c _ => by norm_num [EPSILON, candidateDifference, emdConstOne])
  · exact (find_mip_reducible_or_minimal emdConstZero repZero [0] [0]).1
      ⟨(⟨[], [0]⟩, ⟨[0], []⟩), by decide,
        by norm_num [EPSILON, candidateDifference, emdConstZero]⟩

/-!
MICE search (src/cyphi/subsystem.py, `find_mice`).
-/

/-- Embedding of the namedtuple `a_mice(purview, phi)`: `phi` starts at
`float('-inf')` (embedded as the bottom of `WithBot`) and `purview` at `None`. -/
structure MiceR (n : ℕ) where
  purview : Option (List (Fin n))
  phi : WithBot ℚ

/-- Modelled from the spec: `utils.powerset` (utils.py is not under src/) —
every subset of the given sequence, including the empty set. -/
def powersetM {α : Type} (l : List α) : List (List α) := l.sublists

/-- Embedding of the purview loop of `Subsystem.find_mice`: the guard is
`phi > phi_max or (phi == phi_max and len(purview) > len(maximal_purview))`,
with Python's short-circuit evaluation made explicit; if the length of
`maximal_purview` is demanded while it is still `None`, the loop returns the
`TypeError` Python would raise at that point. -/
def findMiceGo {n : ℕ} (mipFor : List (Fin n) → Option (MipR n)) :
    List (List (Fin n)) → WithBot ℚ → Option (List (Fin n)) →
    Except String (MiceR n)
  | [], phiMax, maximal => .ok ⟨maximal, phiMax⟩
  | pv :: rest, phiMax, maximal =>
    match mipFor pv with
    | none => findMiceGo mipFor rest phiMax maximal
    | some mip =>
      if (mip.difference : WithBot ℚ) > phiMax then
        findMiceGo mipFor rest (mip.difference : ℚ) (some pv)
      else if (mip.difference : WithBot ℚ) = phiMax then
        match maximal with
        | none => .error "TypeError: object of type NoneType has no len()"
        | some mp =>
          if pv.length > mp.length then
            findMiceGo mipFor rest (mip.difference : ℚ) (some pv)
          else findMiceGo mipFor rest phiMax maximal
      else findMiceGo mipFor rest phiMax maximal

/-- Embedding of `Subsystem.find_mice(direction, mechanism)` after the
direction dispatch, with the per-purview MIP search as a parameter: the loop
runs over the powerset of the subsystem's nodes starting from
`phi_max = float('-inf')` and `maximal_purview = None`. -/
def find_mice {n : ℕ} (mipFor : List (Fin n) → Option (MipR n))
    (nodes : List (Fin n)) : Except String (MiceR n) :=
  findMiceGo mipFor (powersetM nodes) ⊥ none

/-- The composition as in the source: `find_mice` calls `self.mip_past` or
`self.mip_future`, which is `find_mip` for the fixed mechanism on each
candidate purview. -/
def find_mice_full {n : ℕ} (emdD : TensorM n → TensorM n → ℚ)
    (rep : List (Fin n) → List (Fin n) → TensorM n)
    (mechanism nodes : List (Fin n)) : Except String (MiceR n) :=
  find_mice (fun pv => find_mip emdD rep mechanism pv) nodes

theorem findMiceGo_cons_skip {n : ℕ} (mipFor : List (Fin n) → Option (MipR n))
    (pv : List (Fin n)) (rest : List (List (Fin n))) (phiMax : WithBot ℚ)
    (maximal : Option (List (Fin n))) (h : mipFor pv = none) :
    findMiceGo mipFor (pv :: rest) phiMax maximal =
      findMiceGo mipFor rest phiMax maximal := by
  rw [findMiceGo, h]

theorem findMiceGo_cons_gt {n : ℕ} (mipFor : List (Fin n) → Option (MipR n))
    (pv : List (Fin n)) (rest : List (List (Fin n))) (phiMax : WithBot ℚ)
    (maximal : Option (List (Fin n))) (mip : MipR n)
    (h : mipFor pv = some mip) (hgt : phiMax < (mip.difference : WithBot ℚ)) :
    findMiceGo mipFor (pv :: rest) phiMax maximal =
      findMiceGo mipFor rest (mip.difference : ℚ) (some pv) := by
  rw [findMiceGo, h]
  simp only [gt_iff_lt, if_pos hgt]

theorem findMiceGo_cons_eq_longer {n : ℕ}
    (mipFor : List (Fin n) → Option (MipR n)) (pv : List (Fin n))
    (rest : List (List (Fin n))) (phiMax : WithBot ℚ) (mp : List (Fin n))
    (mip : MipR n) (h : mipFor pv = some mip)
    (hng : ¬ phiMax < (mip.difference : WithBot ℚ))
    (heq : (mip.difference : WithBot ℚ) = phiMax)
    (hlen : mp.length < pv.length) :
    findMiceGo mipFor (pv :: rest) phiMax (some mp) =
      findMiceGo mipFor rest (mip.difference : ℚ) (some pv) := by
  rw [findMiceGo, h]
  simp only [gt_iff_lt, if_neg hng, if_pos heq, if_pos hlen]

theorem findMiceGo_cons_eq_shorter {n : ℕ}
    (mipFor : List (Fin n) → Option (MipR n)) (pv : List (Fin n))
    (rest : List (List (Fin n))) (phiMax : WithBot ℚ) (mp : List (Fin n))
    (mip : MipR n) (h : mipFor pv = some mip)
    (hng : ¬ phiMax < (mip.difference : WithBot ℚ))
    (heq : (mip.difference : WithBot ℚ) = phiMax)
    (hlen : ¬ mp.length < pv.length) :
    findMiceGo mipFor (pv :: rest) phiMax (some mp) =
      findMiceGo mipFor rest phiMax (some mp) := by
  rw [findMiceGo, h]
  simp only [gt_iff_lt, if_neg hng, if_pos heq, if_neg hlen]

theorem findMiceGo_cons_lt {n : ℕ} (mipFor : List (Fin n) → Option (MipR n))
    (pv : List (Fin n)) (rest : List (List (Fin n))) (phiMax : WithBot ℚ)
    (maximal : Option (List (Fin n))) (mip : MipR n)
    (h : mipFor pv = some mip)
    (hng : ¬ phiMax < (mip.difference : WithBot ℚ))
    (hne : ¬ (mip.difference : WithBot ℚ) = phiMax) :
    findMiceGo mipFor (pv :: rest) phiMax maximal =
      findMiceGo mipFor rest phiMax maximal := by
  rw [findMiceGo, h]
  simp only [gt_iff_lt, if_neg hng, if_neg hne]

/-- The loop invariant of `find_mice`: either no processed purview has yielded
a MIP, and the accumulators still hold the sentinels `float('-inf')`/`None`; or
the accumulators hold a processed purview with its MIP's phi, every processed
purview with a MIP having a smaller phi, or an equal phi with at most that
length. -/
def MiceInv {n : ℕ} (mipFor : List (Fin n) → Option (MipR n))
    (processed : List (List (Fin n))) (phiMax : WithBot ℚ)
    (maximal : Option (List (Fin n))) : Prop :=
  (maximal = none ∧ phiMax = ⊥ ∧ ∀ pv ∈ processed, mipFor pv = none) ∨
  (∃ P mP, maximal = some P ∧ phiMax = (mP.difference : WithBot ℚ) ∧
    P ∈ processed ∧ mipFor P = some mP ∧
    ∀ Q ∈ processed, ∀ mQ, mipFor Q = some mQ →
      (mQ.difference < mP.difference ∨
        (mQ.difference = mP.difference ∧ Q.length ≤ P.length)))

/-- The loop of `find_mice` never reaches the `TypeError` branch and returns
the accumulators, which satisfy the invariant over all processed purviews. -/
theorem findMiceGo_ok {n : ℕ} (mipFor : List (Fin n) → Option (MipR n)) :
    ∀ (rest processed : List (List (Fin n))) (phiMax : WithBot ℚ)
      (maximal : Option (List (Fin n))),
      MiceInv mipFor processed phiMax maximal →
      ∃ (phiF : WithBot ℚ) (maxF : Option (List (Fin n))),
        findMiceGo mipFor rest phiMax maximal = .ok ⟨maxF, phiF⟩ ∧
        MiceInv mipFor (processed ++ rest) phiF maxF := by
  intro rest
  induction rest with
  | nil =>
    intro processed phiMax maximal hinv
    exact ⟨phiMax, maximal, rfl, by simpa using hinv⟩
  | cons pv rest ih =>
    intro processed phiMax maximal hinv
    have happ : (processed ++ [pv]) ++ rest = processed ++ pv :: rest := by
      simp
    rcases hm : mipFor pv with _ | mip
    · rw [findMiceGo_cons_skip mipFor pv rest phiMax maximal hm]
      have hinv2 : MiceInv mipFor (processed ++ [pv]) phiMax maximal := by
        rcases hinv with ⟨h1, h2, h3⟩ | ⟨P, mP, h1, h2, h3, h4, h5⟩
        · refine Or.inl ⟨h1, h2, ?_⟩
          intro x hx
          rcases List.mem_append.mp hx with hxp | hxpv
          · exact h3 x hxp
          · rw [List.mem_singleton.mp hxpv]
            exact hm
        · refine Or.inr ⟨P, mP, h1, h2, List.mem_append_left _ h3, h4, ?_⟩
          intro Q hQ mQ hmQ
          rcases List.mem_append.mp hQ with hQp | hQpv
          · exact h5 Q hQp mQ hmQ
          · rw [List.mem_singleton.mp hQpv] at hmQ
            rw [hm] at hmQ
            cases hmQ
      obtain ⟨phiF, maxF, hrun, hfin⟩ := ih (processed ++ [pv]) phiMax maximal hinv2
      rw [happ] at hfin
      exact ⟨phiF, maxF, hrun, hfin⟩
    · rcases lt_trichotomy phiMax ((mip.difference : ℚ) : WithBot ℚ) with
        hgt | heq | hlt
      · -- the strictly-greater-phi branch: the accumulators are replaced
        rw [findMiceGo_cons_gt mipFor pv rest phiMax maximal mip hm hgt]
        have hinv2 : MiceInv mipFor (processed ++ [pv])
            ((mip.difference : ℚ) : WithBot ℚ) (some pv) := by
          refine Or.inr ⟨pv, mip, rfl, rfl, List.mem_append_right _ (by simp),
            hm, ?_⟩
          intro Q hQ mQ hmQ
          rcases List.mem_append.mp hQ with hQp | hQpv
          · rcases hinv with ⟨_, h2, h3⟩ | ⟨P0, mP0, _, h2, _, _, h5⟩
            · rw [h3 Q hQp] at hmQ
              cases hmQ
            · left
              have hP0 : mP0.difference < mip.difference := by
                rw [h2] at hgt
                exact_mod_cast hgt
              rcases h5 Q hQp mQ hmQ with hQlt | ⟨hQeq, _⟩
              · exact lt_trans hQlt hP0
              · exact hQeq ▸ hP0
          · have hQ1 : Q = pv := List.mem_singleton.mp hQpv
            subst hQ1
            rw [hm] at hmQ
            cases hmQ
            exact Or.inr ⟨rfl, le_rfl⟩
        obtain ⟨phiF, maxF, hrun, hfin⟩ := ih (processed ++ [pv]) _ _ hinv2
        rw [happ] at hfin
        exact ⟨phiF, maxF, hrun, hfin⟩
      · -- the exact-tie branch: the invariant rules out `maximal = None`
        rcases hinv with ⟨_, h2, _⟩ | ⟨P0, mP0, h1, h2, h3, h4, h5⟩
        · rw [h2] at heq
          exact absurd heq.symm (by simp)
        · have hP0d : mP0.difference = mip.difference := by
            rw [h2] at heq
            exact_mod_cast heq
          rw [h1]
          by_cases hlen : P0.length < pv.length
          · rw [findMiceGo_cons_eq_longer mipFor pv rest phiMax P0 mip hm
              (not_lt.mpr (le_of_eq heq.symm)) heq.symm hlen]
            have hinv2 : MiceInv mipFor (processed ++ [pv])
                ((mip.difference : ℚ) : WithBot ℚ) (some pv) := by
              refine Or.inr ⟨pv, mip, rfl, rfl,
                List.mem_append_right _ (by simp), hm, ?_⟩
              intro Q hQ mQ hmQ
              rcases List.mem_append.mp hQ with hQp | hQpv
              · rcases h5 Q hQp mQ hmQ with hQlt | ⟨hQeq, hQlen⟩
                · exact Or.inl (hP0d ▸ hQlt)
                · exact Or.inr ⟨hP0d ▸ hQeq, le_trans hQlen (le_of_lt hlen)⟩
              · have hQ1 : Q = pv := List.mem_singleton.mp hQpv
                subst hQ1
                rw [hm] at hmQ
                cases hmQ
                exact Or.inr ⟨rfl, le_rfl⟩
            obtain ⟨phiF, maxF, hrun, hfin⟩ := ih (processed ++ [pv]) _ _ hinv2
            rw [happ] at hfin
            exact ⟨phiF, maxF, hrun, hfin⟩
          · rw [findMiceGo_cons_eq_shorter mipFor pv rest phiMax P0 mip hm
              (not_lt.mpr (le_of_eq heq.symm)) heq.symm hlen]
            have hinv2 : MiceInv mipFor (processed ++ [pv]) phiMax (some P0) := by
              refine Or.inr ⟨P0, mP0, rfl, h2, List.mem_append_left _ h3, h4, ?_⟩
              intro Q hQ mQ hmQ
              rcases List.mem_append.mp hQ with hQp | hQpv
              · exact h5 Q hQp mQ hmQ
              · have hQ1 : Q = pv := List.mem_singleton.mp hQpv
                subst hQ1
                rw [hm] at hmQ
                cases hmQ
                exact Or.inr ⟨hP0d.symm, not_lt.mp hlen⟩
            obtain ⟨phiF, maxF, hrun, hfin⟩ := ih (processed ++ [pv]) _ _ hinv2
            rw [happ] at hfin
            exact ⟨phiF, maxF, hrun, hfin⟩
      · -- the strictly-smaller-phi branch: the accumulators are kept
        rw [findMiceGo_cons_lt mipFor pv rest phiMax maximal mip hm
          (lt_asymm hlt) (ne_of_lt hlt)]
        rcases hinv with ⟨_, h2, _⟩ | ⟨P0, mP0, h1, h2, h3, h4, h5⟩
        · rw [h2] at hlt
          exact absurd hlt (by simp)
        · have hP0d : mip.difference < mP0.difference := by
            rw [h2] at hlt
            exact_mod_cast hlt
          have hinv2 : MiceInv mipFor (processed ++ [pv]) phiMax maximal := by
            refine Or.inr ⟨P0, mP0, h1, h2, List.mem_append_left _ h3, h4, ?_⟩
            intro Q hQ mQ hmQ
            rcases List.mem_append.mp hQ with hQp | hQpv
            · exact h5 Q hQp mQ hmQ
            · have hQ1 : Q = pv := List.mem_singleton.mp hQpv
              subst hQ1
              rw [hm] at hmQ
              cases hmQ
              exact Or.inl hP0d
          obtain ⟨phiF, maxF, hrun, hfin⟩ := ih (processed ++ [pv]) _ _ hinv2
          rw [happ] at hfin
          exact ⟨phiF, maxF, hrun, hfin⟩

/-- Any MIP ever stored by `find_mip`'s loop passed the epsilon check, so a
returned MIP's difference is at least `EPSILON`, provided the incoming
accumulator already satisfies that (initially it is `None`). -/
theorem findMipGo_some_ge {n : ℕ} (emdD : TensorM n → TensorM n → ℚ)
    (rep : List (Fin n) → List (Fin n) → TensorM n) (unpart : TensorM n) :
    ∀ (l : List (PartM n × PartM n)) (mip : Option (MipR n)) (dmin : WithTop ℚ),
      (∀ m0, mip = some m0 → EPSILON ≤ m0.difference) →
      ∀ m, findMipGo emdD rep unpart l mip dmin = some m →
        EPSILON ≤ m.difference := by
  intro l
  induction l with
  | nil =>
    intro mip dmin hacc m hm
    rw [findMipGo] at hm
    exact hacc m hm
  | cons c rest ih =>
    intro mip dmin hacc m hm
    rw [findMipGo] at hm
    by_cases hc : emdD unpart (partitionedRepertoire rep c) < EPSILON
    · rw [if_pos hc] at hm
      cases hm
    · rw [if_neg hc] at hm
      by_cases hlt :
          ((emdD unpart (partitionedRepertoire rep c) : ℚ) : WithTop ℚ) < dmin
      · rw [if_pos hlt] at hm
        refine ih _ _ (fun m0 h0 => ?_) m hm
        cases h0
        exact not_lt.mp hc
      · rw [if_neg hlt] at hm
        exact ih _ _ hacc m hm

/-- Claim C10: every MIP returned by `find_mip` has difference at least
`EPSILON = 1e-10` (it passed the epsilon check before being stored), and the
`find_mice` loop never evaluates the length of a `None` maximal purview: for
every oracle and every mechanism it terminates with a result, never with the
embedded `TypeError`. -/
theorem find_mice_never_len_of_none (n : ℕ) :
    (∀ (emdD : TensorM n → TensorM n → ℚ)
        (rep : List (Fin n) → List (Fin n) → TensorM n)
        (mechanism purview : List (Fin n)) (m : MipR n),
        find_mip emdD rep mechanism purview = some m →
        EPSILON ≤ m.difference) ∧
    (∀ (emdD : TensorM n → TensorM n → ℚ)
        (rep : List (Fin n) → List (Fin n) → TensorM n)
        (mechanism nodes : List (Fin n)),
        ∃ r, find_mice_full emdD rep mechanism nodes = .ok r) := by
  constructor
  · intro emdD rep mechanism purview m hm
    rw [find_mip] at hm
    exact findMipGo_some_ge emdD rep _ _ none ⊤ (fun m0 h0 => by cases h0) m hm
  · intro emdD rep mechanism nodes
    obtain ⟨phiF, maxF, hrun, _⟩ :=
      findMiceGo_ok (fun pv => find_mip emdD rep mechanism pv)
        (powersetM nodes) [] ⊥ none (Or.inl ⟨rfl, rfl, by simp⟩)
    exact ⟨⟨maxF, phiF⟩, hrun⟩

/-- Claim C6: `find_mice` iterates the full powerset of the subsystem's nodes
(every subset, the empty one included) as candidate purviews; if no purview
yields a MIP it returns purview `None` with phi negative infinity; and if some
purview yields a MIP it returns a purview with a MIP whose phi is maximal,
preferring the longer purview on exact phi ties. -/
theorem find_mice_returns_max_phi_purview {n : ℕ}
    (emdD : TensorM n → TensorM n → ℚ)
    (rep : List (Fin n) → List (Fin n) → TensorM n)
    (mechanism nodes : List (Fin n)) :
    ([] ∈ powersetM nodes ∧
      ∀ s : List (Fin n), s.Sublist nodes → s ∈ powersetM nodes) ∧
    ((∀ pv ∈ powersetM nodes, find_mip emdD rep mechanism pv = none) →
      find_mice_full emdD rep mechanism nodes = .ok ⟨none, ⊥⟩) ∧
    (∀ pv0 ∈ powersetM nodes, ∀ m0 : MipR n,
      find_mip emdD rep mechanism pv0 = some m0 →
      ∃ P mP, find_mice_full emdD rep mechanism nodes =
          .ok ⟨some P, (mP.difference : WithBot ℚ)⟩ ∧
        P ∈ powersetM nodes ∧ find_mip emdD rep mechanism P = some mP ∧
        ∀ Q ∈ powersetM nodes, ∀ mQ, find_mip emdD rep mechanism Q = some mQ →
          (mQ.difference < mP.difference ∨
            (mQ.difference = mP.difference ∧ Q.length ≤ P.length))) := by
  obtain ⟨phiF, maxF, hrun, hfin⟩ :=
    findMiceGo_ok (fun pv => find_mip emdD rep mechanism pv)
      (powersetM nodes) [] ⊥ none (Or.inl ⟨rfl, rfl, by simp⟩)
  rw [List.nil_append] at hfin
  refine ⟨⟨List.mem_sublists.mpr (List.nil_sublist _), fun s hs =>
    List.mem_sublists.mpr hs⟩, ?_, ?_⟩
  · intro hnone
    rcases hfin with ⟨h1, h2, _⟩ | ⟨P, _, _, _, hPmem, hPmip, _⟩
    · rw [h1, h2] at hrun
      exact hrun
    · cases (hnone P hPmem).symm.trans hPmip
  · intro pv0 hpv0 m0 hm0
    rcases hfin with ⟨_, _, h3⟩ | ⟨P, mP, h1, h2, hPmem, hPmip, hbest⟩
    · cases (h3 pv0 hpv0).symm.trans hm0
    · rw [h1, h2] at hrun
      exact ⟨P, mP, hrun, hPmem, hPmip, hbest⟩

/-- Witness for C6: over the one-node subsystem with the constant-one EMD
oracle, the purview `(0,)` yields a MIP and is returned as the MICE purview. -/
theorem find_mice_returns_max_phi_purview_witness :
    ∃ P mP, find_mice_full emdConstOne repZero [0] [0] =
        .ok ⟨some P, (MipR.difference mP : WithBot ℚ)⟩ ∧
      P ∈ powersetM [0] ∧ find_mip emdConstOne repZero [0] P = some mP ∧
      ∀ Q ∈ powersetM [0], ∀ mQ, find_mip emdConstOne repZero [0] Q = some mQ →
        (mQ.difference < mP.difference ∨
          (mQ.difference = mP.difference ∧ Q.length ≤ P.length)) := by
  have hmb : mip_bipartition (n := 1) [0] [0] = [(⟨[], [0]⟩, ⟨[0], []⟩)] := by
    decide
  have hsome : find_mip emdConstOne repZero [0] [0] =
      some ⟨(⟨[], [0]⟩, ⟨[0], []⟩),
        partitionedRepertoire repZero (⟨[], [0]⟩, ⟨[0], []⟩), 1⟩ := by
    rw [find_mip, hmb, findMipGo, if_neg (by norm_num [EPSILON, emdConstOne]),
      if_pos (WithTop.coe_lt_top _), findMipGo]
    rfl
  exact (find_mice_returns_max_phi_purview emdConstOne repZero [0] [0]).2.2
    [0] (by decide) _ hsome

/-- Witness for C10: the MIP found on the one-node example has difference one,
at least `EPSILON`, and the MICE search returns a result. -/
theorem find_mice_never_len_of_none_witness :
    EPSILON ≤ (1 : ℚ) ∧
    ∃ r, find_mice_full emdConstOne repZero [0] [0] = .ok r := by
  have hmb : mip_bipartition (n := 1) [0] [0] = [(⟨[], [0]⟩, ⟨[0], []⟩)] := by
    decide
  have hsome : find_mip emdConstOne repZero [0] [0] =
      some ⟨(⟨[], [0]⟩, ⟨[0], []⟩),
        partitionedRepertoire repZero (⟨[], [0]⟩, ⟨[0], []⟩), 1⟩ := by
    rw [find_mip, hmb, findMipGo, if_neg (by norm_num [EPSILON, emdConstOne]),
      if_pos (WithTop.coe_lt_top _), findMipGo]
    rfl
  exact ⟨(find_mice_never_len_of_none 1).1 emdConstOne repZero [0] [0] _ hsome,
    (find_mice_never_len_of_none 1).2 emdConstOne repZero [0] [0]⟩

/-!
Repertoire computation (src/cyphi/subsystem.py, `cause_repertoire`).
-/

/-- Conditioning a tensor on node `i` having value `b`: the numpy indexing
`conditioned_tpm[..., [state], ...]` keeps the dimension as a singleton holding
the sliced value, i.e. the function becomes constant in that coordinate. -/
def conditionAt {n : ℕ} (i : Fin n) (b : Bool) (T : TensorM n) : TensorM n :=
  fun s => T (Function.update s i b)

/-- Modelled from the spec: `utils.marginalize_out(node, tpm)` (utils.py is not
under src/) — sum the tensor over the node's dimension, keeping it as a
singleton, normalized by the dimension's size 2 (as in node.py's
`tpm.sum(i, keepdims=True) / 2`). -/
def marginalizeOut {n : ℕ} (i : Fin n) (T : TensorM n) : TensorM n :=
  fun s => (T (Function.update s i false) + T (Function.update s i true)) / 2

/-- Modelled from the spec: `utils.max_entropy_distribution(purview, network)`
(utils.py is not under src/) — the purview's maximum-entropy (uniform)
distribution, the all-ones purview-shaped tensor divided by its size. -/
def max_entropy_distribution {n : ℕ} (purview : List (Fin n)) : TensorM n :=
  fun _ => 1 / 2 ^ purview.length

/-- The per-node CPT selected in `cause_repertoire`'s loop: the node's
ON-tensor when its observed current state is 1, else its complement
`1 - mechanism_node.tpm`. -/
def conditionedTpm {n : ℕ} (S : SubsystemM n) (mnode : Fin n) : TensorM n :=
  fun s =>
    if S.current_state mnode then S.network.tpm mnode s
    else 1 - S.network.tpm mnode s

/-- Membership in `boundary_inputs` for one mechanism node: in the union of
the non-purview inputs and the cut-severed inputs, and outside the subsystem. -/
def isBoundaryInput {n : ℕ} (S : SubsystemM n) (purview : List (Fin n))
    (mnode m : Fin n) : Bool :=
  (decide (m ∉ purview) ||
    (decide (m ∈ S.cutSevered) && decide (mnode ∈ S.cutIntact))) &&
  decide (m ∉ S.nodes)

/-- Membership in `marginal_inputs` for one mechanism node: in the same union
minus the boundary inputs, i.e. inside the subsystem. -/
def isMarginalInput {n : ℕ} (S : SubsystemM n) (purview : List (Fin n))
    (mnode m : Fin n) : Bool :=
  (decide (m ∉ purview) ||
    (decide (m ∈ S.cutSevered) && decide (mnode ∈ S.cutIntact))) &&
  decide (m ∈ S.nodes)

/-- One iteration of `cause_repertoire`'s mechanism loop: take the node's
conditioned CPT, condition it on the past state of every boundary input, then
marginalize out every marginal input.  (Python iterates these sets in
unspecified order; conditioning and marginalization on distinct nodes commute,
and here the nodes are visited in index order.) -/
def processedNodeTpm {n : ℕ} (S : SubsystemM n) (purview : List (Fin n))
    (mnode : Fin n) : TensorM n :=
  let t1 := (List.finRange n).foldl
    (fun T m => if isBoundaryInput S purview mnode m then
      conditionAt m (S.past_state m) T else T) (conditionedTpm S mnode)
  (List.finRange n).foldl
    (fun T m => if isMarginalInput S purview mnode m then
      marginalizeOut m T else T) t1

/-- The accumulated conditional joint distribution of `cause_repertoire`
before normalization: the broadcast product over the mechanism nodes, starting
from the all-ones purview-shaped tensor `np.ones(...)`. -/
def cjd {n : ℕ} (S : SubsystemM n) (mechanism purview : List (Fin n)) :
    TensorM n :=
  mechanism.foldl (fun acc mnode =>
    fun s => acc s * processedNodeTpm S purview mnode s) (fun _ => 1)

/-- Embedding of `Subsystem.cause_repertoire(mechanism, purview)`: the empty
mechanism returns the purview's maximum-entropy distribution; the empty purview
returns the multiplicative identity 1; otherwise the accumulated joint is
normalized by its total mass, except that a zero total mass is left undivided
(`if cjd_sum != 0`), returning the joint as is. -/
def cause_repertoire {n : ℕ} (S : SubsystemM n)
    (mechanism purview : List (Fin n)) : TensorM n :=
  if mechanism = [] then max_entropy_distribution purview
  else if purview = [] then fun _ => 1
  else
    let c := cjd S mechanism purview
    let total := ∑ s : StateV n, c s
    if total ≠ 0 then fun s => c s / total else c

/-- A fold of conditional tensor updates preserves pointwise nonnegativity. -/
theorem foldl_step_nonneg {n : ℕ} (step : TensorM n → Fin n → TensorM n)
    (hstep : ∀ T m, (∀ s, 0 ≤ T s) → ∀ s, 0 ≤ step T m s) :
    ∀ (l : List (Fin n)) (T : TensorM n), (∀ s, 0 ≤ T s) →
      ∀ s, 0 ≤ (l.foldl step T) s := by
  intro l
  induction l with
  | nil => intro T hT s; exact hT s
  | cons m rest ih => intro T hT s; exact ih (step T m) (hstep T m hT) s

/-- The processed per-node tensor is pointwise nonnegative when the node TPMs
are probabilities. -/
theorem processedNodeTpm_nonneg {n : ℕ} (S : SubsystemM n)
    (purview : List (Fin n)) (mnode : Fin n)
    (htpm : ∀ i s, 0 ≤ S.network.tpm i s ∧ S.network.tpm i s ≤ 1) :
    ∀ s, 0 ≤ processedNodeTpm S purview mnode s := by
  have hcond : ∀ s, 0 ≤ conditionedTpm S mnode s := by
    intro s
    rw [conditionedTpm]
    split
    · exact (htpm mnode s).1
    · linarith [(htpm mnode s).2]
  have h1 : ∀ s, 0 ≤ ((List.finRange n).foldl
      (fun T m => if isBoundaryInput S purview mnode m then
        conditionAt m (S.past_state m) T else T) (conditionedTpm S mnode)) s := by
    refine foldl_step_nonneg _ ?_ _ _ hcond
    intro T m hT s
    split
    · exact hT _
    · exact hT s
  refine foldl_step_nonneg _ ?_ _ _ h1
  intro T m hT s
  split
  · have ha := hT (Function.update s m false)
    have hb := hT (Function.update s m true)
    rw [marginalizeOut]
    positivity
  · exact hT s

/-- The accumulated joint is pointwise nonnegative when the node TPMs are
probabilities. -/
theorem cjd_nonneg {n : ℕ} (S : SubsystemM n) (mechanism purview : List (Fin n))
    (htpm : ∀ i s, 0 ≤ S.network.tpm i s ∧ S.network.tpm i s ≤ 1) :
    ∀ s, 0 ≤ cjd S mechanism purview s := by
  rw [cjd]
  have hgen : ∀ (l : List (Fin n)) (acc : TensorM n), (∀ s, 0 ≤ acc s) →
      ∀ s, 0 ≤ (l.foldl (fun acc mnode =>
        fun s => acc s * processedNodeTpm S purview mnode s) acc) s := by
    intro l
    induction l with
    | nil => intro acc hacc s; exact hacc s
    | cons mnode rest ih =>
      intro acc hacc s
      exact ih _ (fun t => mul_nonneg (hacc t)
        (processedNodeTpm_nonneg S purview mnode htpm t)) s
  exact hgen mechanism _ (fun _ => zero_le_one)

/-- Claim C7: `cause_repertoire` returns the purview's uniform (maximum
entropy) distribution when the mechanism is empty; returns the multiplicative
identity 1 when the purview is empty; and for nonempty mechanism and purview,
when the accumulated joint's total mass is exactly zero, the zero-guard skips
the division and the returned repertoire is all-zero (the joint is a sum of
products of probabilities, so zero total mass forces every entry to zero). -/
theorem cause_repertoire_edge_cases {n : ℕ} (S : SubsystemM n)
    (mechanism purview : List (Fin n))
    (htpm : ∀ i s, 0 ≤ S.network.tpm i s ∧ S.network.tpm i s ≤ 1) :
    (mechanism = [] → ∀ s, cause_repertoire S mechanism purview s =
      1 / 2 ^ purview.length) ∧
    (purview = [] → ∀ s, cause_repertoire S mechanism purview s = 1) ∧
    (mechanism ≠ [] → purview ≠ [] →
      (∑ s : StateV n, cjd S mechanism purview s) = 0 →
      ∀ s, cause_repertoire S mechanism purview s = 0) := by
  refine ⟨?_, ?_, ?_⟩
  · intro hmech s
    rw [cause_repertoire, if_pos hmech]
    rfl
  · intro hpur s
    by_cases hmech : mechanism = []
    · rw [cause_repertoire, if_pos hmech, max_entropy_distribution, hpur]
      norm_num
    · rw [cause_repertoire, if_neg hmech, if_pos hpur]
  · intro hmech hpur hzero s
    rw [cause_repertoire, if_neg hmech, if_neg hpur]
    simp only [hzero, ne_eq, not_true_eq_false, if_false]
    exact (Finset.sum_eq_zero_iff_of_nonneg
      (fun t _ => cjd_nonneg S mechanism purview htpm t)).mp hzero s
      (Finset.mem_univ s)

/-- A one-node example network whose node is never ON, for the C7 witness. -/
def exNetwork1 : NetworkM 1 :=
  { tpm := fun _ _ => 0
    cm := fun _ _ => true }

/-- A one-node example subsystem in current state ON over `exNetwork1`. -/
def exSubsystem1 : SubsystemM 1 :=
  { nodes := [0], current_state := fun _ => true, past_state := fun _ => false,
    network := exNetwork1, cutSevered := [], cutIntact := [0] }

/-- Witness for C7: on the one-node example the conditioned CPT is identically
zero (the node is observed ON but its ON-probability is zero), the accumulated
joint has zero total mass, and `cause_repertoire` returns the all-zero result;
the empty purview returns 1. -/
theorem cause_repertoire_edge_cases_witness :
    (∀ s, cause_repertoire exSubsystem1 [0] [] s = 1) ∧
    (∑ s : StateV 1, cjd exSubsystem1 [0] [0] s) = 0 ∧
    ∀ s, cause_repertoire exSubsystem1 [0] [0] s = 0 := by
  have htpm : ∀ (i : Fin 1) (s : StateV 1),
      0 ≤ exSubsystem1.network.tpm i s ∧ exSubsystem1.network.tpm i s ≤ 1 := by
    intro i s
    exact ⟨le_rfl, by norm_num [exSubsystem1, exNetwork1]⟩
  have hfr : List.finRange 1 = [0] := by decide
  have hbnd : isBoundaryInput exSubsystem1 [0] 0 0 = false := by decide
  have hmar : isMarginalInput exSubsystem1 [0] 0 0 = false := by decide
  have hc : ∀ s, cjd exSubsystem1 [0] [0] s = 0 := by
    intro s
    show (1 : ℚ) * processedNodeTpm exSubsystem1 [0] 0 s = 0
    rw [processedNodeTpm, hfr]
    simp only [List.foldl_cons, List.foldl_nil, hbnd, hmar, if_false]
    show (1 : ℚ) * conditionedTpm exSubsystem1 0 s = 0
    rw [conditionedTpm]
    norm_num [exSubsystem1, exNetwork1]
  have hzero : (∑ s : StateV 1, cjd exSubsystem1 [0] [0] s) = 0 :=
    Finset.sum_eq_zero (fun s _ => hc s)
  exact ⟨(cause_repertoire_edge_cases exSubsystem1 [0] [] htpm).2.1 rfl,
    hzero,
    (cause_repertoire_edge_cases exSubsystem1 [0] [0] htpm).2.2
      (by simp) (by simp) hzero⟩

/-!
System-level search (src/cyphi/compute.py, `_big_mip`).
-/

/-- Embedding of `models.BigMip` as read by `_big_mip`: the subsystem, its phi,
and the two constellations (held as `None` for the fixed single-node result). -/
structure BigMipM (n : ℕ) where
  subsystem : SubsystemM n
  phi : ℚ
  unpartitioned_constellation : Option (List ConceptM)
  partitioned_constellation : Option (List ConceptM)

/-- Embedding of `_null_mip`: a BigMip with zero phi and empty constellations. -/
def null_mip {n : ℕ} (S : SubsystemM n) : BigMipM n :=
  ⟨S, 0, some [], some []⟩

/-- Embedding of `_single_node_mip`, gated by the configuration flag
`constants.SINGLE_NODES_WITH_SELFLOOPS_HAVE_PHI` (constants.py is not under
src/; the spec treats the flag as a configuration input): phi 0.5 with no
constellations when on, the null MIP when off. -/
def single_node_mip {n : ℕ} (selfLoopFlag : Bool) (S : SubsystemM n) :
    BigMipM n :=
  if selfLoopFlag then ⟨S, 1 / 2, none, none⟩ else null_mip S

/-- One step of reachable-set expansion along a Boolean adjacency. -/
def reachStep {m : ℕ} (adj : Fin m → Fin m → Bool) (X : Finset (Fin m)) :
    Finset (Fin m) :=
  X ∪ Finset.univ.filter (fun j => ∃ i ∈ X, adj i j = true)

/-- The vertices reachable from `i` in zero or more steps: `m`-fold iteration
of one-step expansion from the singleton (enough steps for any path). -/
def reachSet {m : ℕ} (adj : Fin m → Fin m → Bool) (i : Fin m) : Finset (Fin m) :=
  (reachStep adj)^[m] {i}

/-- Decidable reachability along the adjacency. -/
def reachB {m : ℕ} (adj : Fin m → Fin m → Bool) (i j : Fin m) : Bool :=
  j ∈ reachSet adj i

/-- The strongly connected component of `i`: its mutual-reachability class. -/
def scc {m : ℕ} (adj : Fin m → Fin m → Bool) (i : Fin m) : Finset (Fin m) :=
  Finset.univ.filter (fun j => reachB adj i j = true ∧ reachB adj j i = true)

/-- The number of strongly connected components: the number of distinct
mutual-reachability classes. -/
def strongComponentCount {m : ℕ} (adj : Fin m → Fin m → Bool) : ℕ :=
  (Finset.univ.image (scc adj)).card

/-- What `scipy.sparse.csgraph.connected_components(csr_matrix(cm))` computes
with its default arguments (`directed=True, connection='weak'`): the number of
WEAKLY connected components, i.e. the components of the symmetrized graph. -/
def weakComponentCount {m : ℕ} (adj : Fin m → Fin m → Bool) : ℕ :=
  strongComponentCount (fun i j => adj i j || adj j i)

/-- The induced connectivity submatrix of `_big_mip`:
`cm[np.ix_(subsystem node indices, subsystem node indices)]`. -/
def inducedAdjacency {n : ℕ} (S : SubsystemM n) :
    Fin S.nodes.length → Fin S.nodes.length → Bool :=
  fun i j => S.network.cm (S.nodes.get i) (S.nodes.get j)

/-- Embedding of `_big_mip(cache_key, subsystem)`, with the per-bipartition
evaluation `_evaluate_partition` (which drives the whole constellation
machinery, external oracles included) as the parameter `evalPartition`:
single-node subsystems get the fixed policy result; then the component count of
the induced connectivity submatrix is taken with scipy's DEFAULT, WEAK,
connectivity — although the source's comments say "not strongly connected" and
"Get the number of strongly connected components" — and more than one component
returns the null MIP; otherwise every bipartition of the node indices except
the first (trivial) one is evaluated and the minimum is returned (BigMips
compare by phi; Python's `min` keeps the first minimal element).  The source's
`if not subsystem` check is dead code: `Subsystem` defines neither `__bool__`
nor `__len__`, so an instance is always truthy and that branch never fires; it
is therefore not modelled as reachable here. -/
def big_mip {n : ℕ} (selfLoopFlag : Bool)
    (evalPartition : List (Fin n) × List (Fin n) → BigMipM n)
    (S : SubsystemM n) : BigMipM n :=
  if S.nodes.length = 1 then single_node_mip selfLoopFlag S
  else if weakComponentCount (inducedAdjacency S) > 1 then null_mip S
  else
    match ((bipartitionM S.nodes).drop 1).map evalPartition with
    | [] => null_mip S
    | b :: bs => bs.foldl (fun acc x => if x.phi < acc.phi then x else acc) b

/-- A two-node example subsystem over `exNetwork2` (whose only connection runs
from node 0 to node 1). -/
def exSubsystemChain : SubsystemM 2 :=
  { nodes := [0, 1], current_state := fun _ => true,
    past_state := fun _ => false, network := exNetwork2,
    cutSevered := [], cutIntact := [0, 1] }

/-- A partition evaluation oracle returning phi 5 for every bipartition. -/
def exEval5 : List (Fin 2) × List (Fin 2) → BigMipM 2 :=
  fun _ => ⟨exSubsystemChain, 5, some [], some []⟩

/-- A partition evaluation oracle returning phi 7 for every bipartition. -/
def exEval7 : List (Fin 2) × List (Fin 2) → BigMipM 2 :=
  fun _ => ⟨exSubsystemChain, 7, some [], some []⟩

/-- Claim C3 (failing-input evaluation): the two-node subsystem whose only
connection runs from node 0 to node 1 has two strongly connected components,
so the claim says `_big_mip` returns the null BigMip (phi 0, empty
constellations) without evaluating any bipartition; but the code counts weakly
connected components (scipy's default), finds one, and proceeds to the
bipartition search: its result is whatever the partition evaluation produces
(phi 5 under one oracle, phi 7 under another — so bipartitions ARE evaluated
and do determine the result), not the null MIP's phi 0. -/
theorem big_mip_uses_weak_connectivity :
    strongComponentCount (inducedAdjacency exSubsystemChain) = 2 ∧
    weakComponentCount (inducedAdjacency exSubsystemChain) = 1 ∧
    (big_mip false exEval5 exSubsystemChain).phi = 5 ∧
    (big_mip false exEval7 exSubsystemChain).phi = 7 ∧
    (null_mip exSubsystemChain).phi = 0 := by
  refine ⟨by decide, by decide, ?_, ?_, rfl⟩ <;> decide

end CyPhi
